import Mathlib

/-!
Verification of the phrase/slang occurrence locator of the voquab repository.

The development embeds, over lists of characters, the two Python copies of
the locator pipeline:

* scripts/backfill_phrase_slang_occurrences.py:
  normalize_text, normalize_for_search, phrase_exists_in_line,
  find_phrase_positions (top-level definitions below);
* scripts/import_lyrics.py:
  normalize_text_for_match, normalize_for_search, phrase_exists_in_line,
  find_phrase_positions (namespace IL below).

Modelling conventions:

* a Python str is a List Char; each Lean Char models one NFC-composed code
  point, so unicodedata.normalize(NFC, s) is the identity on the embedding;
* str.lower is modelled character-wise on the repertoire the data uses
  (ASCII and the Latin-1 letters); other characters are untouched;
* str.strip and str.split() use the ASCII whitespace characters;
* the regular-expression work of phrase_exists_in_line is modelled
  step by step: re.escape, the two str.replace calls on the escaped
  pattern, a parser of the resulting pattern text into literal/optional
  items, and a search procedure implementing
  (?:^|[^\x5cw]) pattern (?:$|[^\x5cw]) under re.search semantics.
  re.IGNORECASE is inert because both sides have already been lowercased;
* every function is total and structurally recursive, so closed instances
  evaluate by decide.
-/

/-- ASCII apostrophe, written by code point to keep source text plain. -/
def apos : Char := Char.ofNat 39

/-- Backslash. -/
def bslash : Char := Char.ofNat 92

/-- Question mark, the optional-quantifier character of the built regex. -/
def qmark : Char := Char.ofNat 63

/-- Unicode right single quotation mark U+2019. -/
def rsq : Char := Char.ofNat 0x2019

/-- Whitespace recognised by the model of str.strip and str.split
(the ASCII whitespace characters). -/
def pyIsSpace (c : Char) : Bool :=
  decide (c.toNat = 32 ∨ c.toNat = 9 ∨ c.toNat = 10 ∨ c.toNat = 11 ∨
          c.toNat = 12 ∨ c.toNat = 13)

/-- Model of str.lower restricted to ASCII and the Latin-1 letters:
uppercase ASCII and the uppercase Latin-1 range (multiplication sign
excluded) map to their lowercase forms 32 code points higher. -/
def pyLower (c : Char) : Char :=
  let n := c.toNat
  if 65 ≤ n ∧ n ≤ 90 then Char.ofNat (n + 32)
  else if 192 ≤ n ∧ n ≤ 222 ∧ n ≠ 215 then Char.ofNat (n + 32)
  else c

/-- Model of the regex word-character class [^\x5cw] complement test:
ASCII letters, digits, underscore, and the Latin-1 letters (multiplication
and division signs excluded). Characters above U+00FF are treated as
non-word; in particular U+2019 is non-word, as in Python. -/
def isWordChar (c : Char) : Bool :=
  let n := c.toNat
  (97 ≤ n && n ≤ 122) || (65 ≤ n && n ≤ 90) || (48 ≤ n && n ≤ 57) ||
  n == 95 || (192 ≤ n && n ≤ 255 && n != 215 && n != 247)

/-- Model of str.strip: drop leading and trailing whitespace. -/
def pyStrip (s : List Char) : List Char :=
  ((s.dropWhile pyIsSpace).reverse.dropWhile pyIsSpace).reverse

/-- Model of str.split() with no separator: split on whitespace runs,
producing no empty words. The accumulator holds the current word
reversed. -/
def splitAux : List Char → List Char → List (List Char)
  | [], acc => if acc.isEmpty then [] else [acc.reverse]
  | c :: s, acc =>
    if pyIsSpace c then
      if acc.isEmpty then splitAux s [] else acc.reverse :: splitAux s []
    else
      splitAux s (c :: acc)

/-- Split a string on whitespace, Python str.split() semantics. -/
def pySplit (s : List Char) : List (List Char) := splitAux s []

/-- Model of str.replace(apostrophe, empty): remove every ASCII
apostrophe. -/
def replaceAposEmpty : List Char → List Char
  | [] => []
  | c :: s => if c = apos then replaceAposEmpty s else c :: replaceAposEmpty s

/-- Model of str.rstrip(apostrophe): drop trailing ASCII apostrophes. -/
def rstripApos (s : List Char) : List Char :=
  (s.reverse.dropWhile (fun c => decide (c = apos))).reverse

/-- Characters escaped by re.escape in Python 3.7 and later. -/
def reEscapeSet : List Char :=
  [Char.ofNat 40, Char.ofNat 41, Char.ofNat 91, Char.ofNat 93,
   Char.ofNat 123, Char.ofNat 125, Char.ofNat 63, Char.ofNat 42,
   Char.ofNat 43, Char.ofNat 45, Char.ofNat 124, Char.ofNat 94,
   Char.ofNat 36, Char.ofNat 92, Char.ofNat 46, Char.ofNat 38,
   Char.ofNat 126, Char.ofNat 35, Char.ofNat 32, Char.ofNat 9,
   Char.ofNat 10, Char.ofNat 13, Char.ofNat 11, Char.ofNat 12]

/-- Model of re.escape: put a backslash before every special character. -/
def reEscape : List Char → List Char
  | [] => []
  | c :: s =>
    if c ∈ reEscapeSet then bslash :: c :: reEscape s
    else c :: reEscape s

/-- Model of str.replace on the two-character pattern backslash-apostrophe,
replaced by apostrophe-questionmark; leftmost, non-overlapping. -/
def replaceBsApos : List Char → List Char
  | [] => []
  | [c] => [c]
  | c :: d :: s =>
    if c = bslash ∧ d = apos then apos :: qmark :: replaceBsApos s
    else c :: replaceBsApos (d :: s)

/-- Model of str.replace on the one-character pattern apostrophe, replaced
by apostrophe-questionmark. -/
def replaceAposOpt : List Char → List Char
  | [] => []
  | c :: s =>
    if c = apos then apos :: qmark :: replaceAposOpt s
    else c :: replaceAposOpt s

/-- One item of the parsed regex body: a literal character or an optional
character (a character followed by the optional quantifier). -/
inductive PatItem where
  | lit (c : Char)
  | opt (c : Char)
deriving DecidableEq, Repr

/-- Parser state: nothing pending, or a pending atom together with the
number of quantifier characters attached to it so far. -/
inductive PSt where
  | start
  | pend (a : Char) (q : Nat)
deriving DecidableEq

/-- Emit the pending atom, as a literal when no quantifier was attached
and as an optional item otherwise. -/
def flushP : PSt → List PatItem
  | PSt.start => []
  | PSt.pend a 0 => [PatItem.lit a]
  | PSt.pend a _ => [PatItem.opt a]

/-- Parse the constructed pattern text into items. The patterns built by
phrase_exists_in_line consist of plain characters, backslash escapes and
optional quantifiers attached to apostrophes only, which this state
machine covers; extra quantifiers on one atom (the lazy form) keep the
atom optional. -/
def parseAux : PSt → List Char → List PatItem
  | st, [] => flushP st
  | st, c :: rest =>
    if c = qmark then
      match st with
      | PSt.pend a _ => parseAux (PSt.pend a 1) rest
      | PSt.start => parseAux (PSt.pend qmark 0) rest
    else if c = bslash then
      match rest with
      | [] => flushP st ++ [PatItem.lit bslash]
      | d :: r2 => flushP st ++ parseAux (PSt.pend d 0) r2
    else
      flushP st ++ parseAux (PSt.pend c 0) rest

/-- Parse a whole pattern text. -/
def parsePat (s : List Char) : List PatItem := parseAux PSt.start s

/-- The trailing boundary (?:$|[^\x5cw]): end of input or a non-word
character next. -/
def tailOK : List Char → Bool
  | [] => true
  | c :: _ => !isWordChar c

/-- Match the parsed pattern against a prefix of the text and then require
the trailing boundary on the remainder. -/
def matchHere : List PatItem → List Char → Bool
  | [], s => tailOK s
  | PatItem.lit _ :: _, [] => false
  | PatItem.lit c :: ps, d :: s => decide (c = d) && matchHere ps s
  | PatItem.opt c :: ps, s =>
    matchHere ps s ||
      (match s with
       | d :: s2 => decide (c = d) && matchHere ps s2
       | [] => false)

/-- Try every start position whose leading boundary is a consumed non-word
character. -/
def searchTail (P : List PatItem) : List Char → Bool
  | [] => false
  | c :: s => (!isWordChar c && matchHere P s) || searchTail P s

/-- Model of re.search for (?:^|[^\x5cw]) body (?:$|[^\x5cw]): either the
body matches at the start of the text, or some non-word character is
consumed first. -/
def patSearch (P : List PatItem) (line : List Char) : Bool :=
  matchHere P line || searchTail P line

/-- Embedding of normalize_text from
scripts/backfill_phrase_slang_occurrences.py: lowercase, strip, NFC
(identity here, see the header). -/
def normalize_text (text : List Char) : List Char :=
  pyStrip (text.map pyLower)

/-- Characters removed by the punctuation substitution of
normalize_for_search. -/
def punctChars : List Char :=
  [Char.ofNat 0xBF, Char.ofNat 0xA1, Char.ofNat 46, Char.ofNat 44,
   Char.ofNat 33, Char.ofNat 63, Char.ofNat 59, Char.ofNat 58]

/-- Model of re.sub on the punctuation class: remove each listed
character. -/
def stripPunct (s : List Char) : List Char :=
  s.filter (fun c => !(decide (c ∈ punctChars)))

/-- Embedding of normalize_for_search from
scripts/backfill_phrase_slang_occurrences.py: normalize_text, then the two
apostrophe replace calls (both on the ASCII apostrophe, as in the source),
then the punctuation substitution. -/
def normalize_for_search (text : List Char) : List Char :=
  stripPunct (replaceAposEmpty (replaceAposEmpty (normalize_text text)))

/-- Embedding of phrase_exists_in_line from
scripts/backfill_phrase_slang_occurrences.py: normalize both strings,
escape the phrase, make apostrophes optional, and search with the
word-boundary wrapper. -/
def phrase_exists_in_line (line_text phrase_text : List Char) : Bool :=
  let line_lower := normalize_text line_text
  let phrase_lower := normalize_text phrase_text
  let escaped := reEscape phrase_lower
  let escaped := replaceBsApos escaped
  let escaped := replaceAposOpt escaped
  patSearch (parsePat escaped) line_lower

/-- One token of a line: word text and integer position. -/
structure Token where
  word_text : List Char
  word_position : Int
deriving DecidableEq, Repr

/-- One entry of the normalized word list built by find_phrase_positions
in the backfill script: normalized text, lowercased original text, and the
position. -/
structure NW where
  norm : List Char
  original : List Char
  position : Int
deriving DecidableEq, Repr

/-- Build one normalized entry, as the backfill loop does. -/
def mkNW (w : Token) : NW :=
  { norm := normalize_for_search w.word_text
    original := w.word_text.map pyLower
    position := w.word_position }

/-- The per-word comparison of the multi-word window scan: exact equality
for words shorter than three characters, otherwise exact equality or
contraction equivalence through rstrip of the ASCII apostrophe. -/
def word_match (phrase_word line_word : List Char) : Bool :=
  if phrase_word.length < 3 then decide (line_word = phrase_word)
  else
    decide (line_word = phrase_word) ||
    decide (rstripApos phrase_word = line_word) ||
    decide (rstripApos line_word = phrase_word)

/-- All pairs of a window match. -/
def windowMatches : List (List Char) → List NW → Bool
  | [], _ => true
  | _ :: _, [] => false
  | pw :: pws, w :: ws => word_match pw w.norm && windowMatches pws ws

/-- Minimum of a list of positions, as min over a fold; 0 on the empty
list, which find_phrase_positions never passes. -/
def minPos : List Int → Int
  | [] => 0
  | x :: xs => xs.foldl min x

/-- Maximum of a list of positions. -/
def maxPos : List Int → Int
  | [] => 0
  | x :: xs => xs.foldl max x

/-- The sliding-window scan of the multi-word branch: at each start index,
if the window fits and every pair matches, return the minimum and maximum
of the window positions; stop when the window no longer fits. -/
def scanWindows (pws : List (List Char)) : List NW → Option (Int × Int)
  | [] =>
    if pws.length ≤ 0 then
      if windowMatches pws [] then some (minPos [], maxPos []) else none
    else none
  | w :: ws =>
    if pws.length ≤ (w :: ws).length then
      if windowMatches pws (w :: ws) then
        let poss := ((w :: ws).take pws.length).map NW.position
        some (minPos poss, maxPos poss)
      else scanWindows pws ws
    else none

/-- Embedding of find_phrase_positions from
scripts/backfill_phrase_slang_occurrences.py. -/
def find_phrase_positions (line_text phrase_text : List Char)
    (line_words : List Token) : Option (Int × Int) :=
  if line_words.isEmpty then none
  else
    match pySplit (normalize_for_search phrase_text) with
    | [] => none
    | [target] =>
      let nws := line_words.map mkNW
      if target.length < 3 then
        match nws.find? (fun w => decide (w.norm = target)) with
        | some w => some (w.position, w.position)
        | none => none
      else if phrase_exists_in_line line_text phrase_text then
        match nws.find? (fun w =>
            decide (w.norm = target) ||
            decide (rstripApos target = w.norm) ||
            decide (rstripApos w.norm = target)) with
        | some w => some (w.position, w.position)
        | none => none
      else none
    | pw1 :: pw2 :: pwrest =>
      if phrase_exists_in_line line_text phrase_text then
        scanWindows (pw1 :: pw2 :: pwrest) (line_words.map mkNW)
      else none

namespace IL

/-- Embedding of normalize_text_for_match from scripts/import_lyrics.py;
the body coincides with normalize_text of the backfill script. -/
def normalize_text_for_match (text : List Char) : List Char :=
  pyStrip (text.map pyLower)

/-- Embedding of normalize_for_search from scripts/import_lyrics.py. -/
def normalize_for_search (text : List Char) : List Char :=
  stripPunct (replaceAposEmpty (replaceAposEmpty (normalize_text_for_match text)))

/-- Embedding of phrase_exists_in_line from scripts/import_lyrics.py. -/
def phrase_exists_in_line (line_text phrase_text : List Char) : Bool :=
  let line_lower := normalize_text_for_match line_text
  let phrase_lower := normalize_text_for_match phrase_text
  let escaped := reEscape phrase_lower
  let escaped := replaceBsApos escaped
  let escaped := replaceAposOpt escaped
  patSearch (parsePat escaped) line_lower

/-- One entry of the normalized word list built by find_phrase_positions in
scripts/import_lyrics.py; unlike the backfill copy it keeps no lowercased
original text. -/
structure NW where
  norm : List Char
  position : Int
deriving DecidableEq, Repr

/-- Build one normalized entry, as the import_lyrics loop does. -/
def mkNW (w : Token) : NW :=
  { norm := IL.normalize_for_search w.word_text
    position := w.word_position }

/-- The per-word comparison of the multi-word window scan of
scripts/import_lyrics.py. -/
def word_match (phrase_word line_word : List Char) : Bool :=
  if phrase_word.length < 3 then decide (line_word = phrase_word)
  else
    decide (line_word = phrase_word) ||
    decide (rstripApos phrase_word = line_word) ||
    decide (rstripApos line_word = phrase_word)

/-- All pairs of a window match. -/
def windowMatches : List (List Char) → List IL.NW → Bool
  | [], _ => true
  | _ :: _, [] => false
  | pw :: pws, w :: ws => IL.word_match pw w.norm && IL.windowMatches pws ws

/-- The sliding-window scan of the multi-word branch of
scripts/import_lyrics.py. -/
def scanWindows (pws : List (List Char)) : List IL.NW → Option (Int × Int)
  | [] =>
    if pws.length ≤ 0 then
      if IL.windowMatches pws [] then some (minPos [], maxPos []) else none
    else none
  | w :: ws =>
    if pws.length ≤ (w :: ws).length then
      if IL.windowMatches pws (w :: ws) then
        let poss := ((w :: ws).take pws.length).map IL.NW.position
        some (minPos poss, maxPos poss)
      else IL.scanWindows pws ws
    else none

/-- Embedding of find_phrase_positions from scripts/import_lyrics.py. -/
def find_phrase_positions (line_text phrase_text : List Char)
    (line_words : List Token) : Option (Int × Int) :=
  if line_words.isEmpty then none
  else
    match pySplit (IL.normalize_for_search phrase_text) with
    | [] => none
    | [target] =>
      let nws := line_words.map IL.mkNW
      if target.length < 3 then
        match nws.find? (fun w => decide (w.norm = target)) with
        | some w => some (w.position, w.position)
        | none => none
      else if IL.phrase_exists_in_line line_text phrase_text then
        match nws.find? (fun w =>
            decide (w.norm = target) ||
            decide (rstripApos target = w.norm) ||
            decide (rstripApos w.norm = target)) with
        | some w => some (w.position, w.position)
        | none => none
      else none
    | pw1 :: pw2 :: pwrest =>
      if IL.phrase_exists_in_line line_text phrase_text then
        IL.scanWindows (pw1 :: pw2 :: pwrest) (line_words.map IL.mkNW)
      else none

end IL

/-- Modelled from the spec: the simplified locator of the refinement claim,
identical to find_phrase_positions except that every token-level
comparison is exact normalized equality, with no contraction clause. The
per-word comparison of its window scan. -/
def word_match_simple (phrase_word line_word : List Char) : Bool :=
  decide (line_word = phrase_word)

/-- All pairs of a window match exactly. -/
def windowMatchesSimple : List (List Char) → List NW → Bool
  | [], _ => true
  | _ :: _, [] => false
  | pw :: pws, w :: ws => word_match_simple pw w.norm && windowMatchesSimple pws ws

/-- The sliding-window scan of the simplified locator. -/
def scanWindowsSimple (pws : List (List Char)) : List NW → Option (Int × Int)
  | [] =>
    if pws.length ≤ 0 then
      if windowMatchesSimple pws [] then some (minPos [], maxPos []) else none
    else none
  | w :: ws =>
    if pws.length ≤ (w :: ws).length then
      if windowMatchesSimple pws (w :: ws) then
        let poss := ((w :: ws).take pws.length).map NW.position
        some (minPos poss, maxPos poss)
      else scanWindowsSimple pws ws
    else none

/-- Modelled from the spec: the simplified locator, using only exact
normalized equality at the token level. -/
def find_simple (line_text phrase_text : List Char)
    (line_words : List Token) : Option (Int × Int) :=
  if line_words.isEmpty then none
  else
    match pySplit (normalize_for_search phrase_text) with
    | [] => none
    | [target] =>
      let nws := line_words.map mkNW
      if target.length < 3 then
        match nws.find? (fun w => decide (w.norm = target)) with
        | some w => some (w.position, w.position)
        | none => none
      else if phrase_exists_in_line line_text phrase_text then
        match nws.find? (fun w => decide (w.norm = target)) with
        | some w => some (w.position, w.position)
        | none => none
      else none
    | pw1 :: pw2 :: pwrest =>
      if phrase_exists_in_line line_text phrase_text then
        scanWindowsSimple (pw1 :: pw2 :: pwrest) (line_words.map mkNW)
      else none

/-- Window test used to state the leftmost-match and span theorems: the
window of the length of the word list fits at start index i and every
pair matches. -/
def windowAt (pws : List (List Char)) (ws : List NW) (i : Nat) : Bool :=
  if pws.length ≤ (ws.drop i).length then windowMatches pws (ws.drop i)
  else false

/-- The span the scan reports for the window at start index i. -/
def spanAt (pws : List (List Char)) (ws : List NW) (i : Nat) : Int × Int :=
  let poss := ((ws.drop i).take pws.length).map NW.position
  (minPos poss, maxPos poss)

/-- Word pa. -/
def paW : List Char := ['p', 'a']

/-- Word pa with a trailing apostrophe. -/
def paAposW : List Char := ['p', 'a', apos]

/-- Word la. -/
def laW : List Char := ['l', 'a']

/-- Word lava. -/
def lavaW : List Char := ['l', 'a', 'v', 'a']

/-- Word casa. -/
def casaW : List Char := ['c', 'a', 's', 'a']

/-- Line text of the boundary-rejection scenario. -/
def casaLine : List Char :=
  ['N', 'o', ' ', 'v', 'o', 'y', ' ', 'a', ' ', 'c', 'a', 's', 'a', 'r',
   ' ', 'a', ' ', 'n', 'a', 'd', 'i', 'e']

/-- Tokens of the boundary-rejection scenario. -/
def casaToks : List Token :=
  [⟨['N', 'o'], 1⟩, ⟨['v', 'o', 'y'], 2⟩, ⟨['a'], 3⟩,
   ⟨['c', 'a', 's', 'a', 'r'], 4⟩, ⟨['a'], 5⟩,
   ⟨['n', 'a', 'd', 'i', 'e'], 6⟩]

/-- Tokens of the short-word scenario. -/
def laToks : List Token := [⟨laW, 1⟩, ⟨lavaW, 2⟩]

/-- Word tener. -/
def tenerW : List Char := ['t', 'e', 'n', 'e', 'r']

/-- Word que. -/
def queW : List Char := ['q', 'u', 'e']

/-- Word ver. -/
def verW : List Char := ['v', 'e', 'r']

/-- Word con. -/
def conW : List Char := ['c', 'o', 'n']

/-- Expression of the leftmost-policy scenario. -/
def tenerQueVerE : List Char := tenerW ++ [' '] ++ queW ++ [' '] ++ verW

/-- Tokens of the leftmost-policy scenario. -/
def tenerToks : List Token :=
  [⟨tenerW, 1⟩, ⟨queW, 2⟩, ⟨verW, 3⟩, ⟨conW, 4⟩,
   ⟨tenerW, 5⟩, ⟨queW, 6⟩, ⟨verW, 7⟩]

/-- Line text matching the leftmost-policy tokens. -/
def tenerLine : List Char :=
  tenerQueVerE ++ [' '] ++ conW ++ [' '] ++ tenerQueVerE

/-- Word Tu with the accented u, capitalised as in the scenario line. -/
def tuW : List Char := ['T', 'ú']

/-- Word tienes. -/
def tienesW : List Char := ['t', 'i', 'e', 'n', 'e', 's']

/-- Word irte. -/
def irteW : List Char := ['i', 'r', 't', 'e']

/-- Word ahora. -/
def ahoraW : List Char := ['a', 'h', 'o', 'r', 'a']

/-- Tokens of the end-to-end scenario, positions 1 through 8. -/
def c8Toks : List Token :=
  [⟨tuW, 1⟩, ⟨tienesW, 2⟩, ⟨queW, 3⟩, ⟨irteW, 4⟩,
   ⟨paAposW, 5⟩, ⟨laW, 6⟩, ⟨casaW, 7⟩, ⟨ahoraW, 8⟩]

/-- Expression of the end-to-end scenario. -/
def c8Expr : List Char := paAposW ++ [' '] ++ laW ++ [' '] ++ casaW

/-- Line text of the end-to-end scenario. -/
def c8Line : List Char :=
  tuW ++ [' '] ++ tienesW ++ [' '] ++ queW ++ [' '] ++ irteW ++ [' '] ++
  paAposW ++ [' '] ++ laW ++ [' '] ++ casaW ++ [' '] ++ ahoraW

/-- Expression consisting only of stripped punctuation marks. -/
def punctOnlyE : List Char := [Char.ofNat 0xBF, Char.ofNat 33]

/-- One token whose text is three periods, which normalizes to the empty
string. -/
def dotsToks : List Token :=
  [⟨[Char.ofNat 46, Char.ofNat 46, Char.ofNat 46], 1⟩]

theorem splitAux_ne_nil : ∀ (s acc : List Char), ∀ w ∈ splitAux s acc, w ≠ [] := by
  intro s
  induction s with
  | nil =>
    intro acc w hw
    simp only [splitAux] at hw
    split at hw
    · exact absurd hw (List.not_mem_nil w)
    · rename_i h
      simp only [List.mem_singleton] at hw
      subst hw
      intro hr
      rw [List.reverse_eq_nil_iff] at hr
      subst hr
      simp at h
  | cons c s ih =>
    intro acc w hw
    simp only [splitAux] at hw
    split at hw
    · split at hw
      · exact ih [] w hw
      · rename_i h
        rcases List.mem_cons.mp hw with h1 | h1
        · subst h1
          intro hr
          rw [List.reverse_eq_nil_iff] at hr
          subst hr
          simp at h
        · exact ih [] w h1
    · exact ih (c :: acc) w hw

theorem splitAux_subset : ∀ (s acc : List Char), ∀ w ∈ splitAux s acc,
    ∀ c ∈ w, c ∈ s ∨ c ∈ acc := by
  intro s
  induction s with
  | nil =>
    intro acc w hw c hc
    simp only [splitAux] at hw
    split at hw
    · simp at hw
    · simp only [List.mem_singleton] at hw
      subst hw
      right
      exact List.mem_reverse.mp hc
  | cons a s ih =>
    intro acc w hw c hc
    simp only [splitAux] at hw
    split at hw
    · have lift : c ∈ s ∨ c ∈ ([] : List Char) → c ∈ a :: s ∨ c ∈ acc := by
        rintro (h | h)
        · exact Or.inl (List.mem_cons_of_mem a h)
        · simp at h
      split at hw
      · exact lift (ih [] w hw c hc)
      · rcases List.mem_cons.mp hw with h1 | h1
        · subst h1
          exact Or.inr (List.mem_reverse.mp hc)
        · exact lift (ih [] w h1 c hc)
    · rcases ih (a :: acc) w hw c hc with h1 | h1
      · exact Or.inl (List.mem_cons_of_mem a h1)
      · rcases List.mem_cons.mp h1 with h2 | h2
        · exact Or.inl (h2 ▸ List.mem_cons_self a s)
        · exact Or.inr h2

theorem pySplit_ne_nil {s w : List Char} (hw : w ∈ pySplit s) : w ≠ [] :=
  splitAux_ne_nil s [] w hw

theorem pySplit_subset {s w : List Char} (hw : w ∈ pySplit s) : ∀ c ∈ w, c ∈ s := by
  intro c hc
  rcases splitAux_subset s [] w hw c hc with h | h
  · exact h
  · simp at h

theorem replaceAposEmpty_no_apos (s : List Char) : apos ∉ replaceAposEmpty s := by
  induction s with
  | nil => simp [replaceAposEmpty]
  | cons c s ih =>
    simp only [replaceAposEmpty]
    split
    · exact ih
    · rename_i h
      intro hmem
      rcases List.mem_cons.mp hmem with h1 | h1
      · exact h h1.symm
      · exact ih h1

theorem normalize_for_search_no_apos (s : List Char) :
    apos ∉ normalize_for_search s := by
  intro h
  have h2 : apos ∈ replaceAposEmpty (replaceAposEmpty (normalize_text s)) :=
    List.mem_of_mem_filter h
  exact replaceAposEmpty_no_apos _ h2

theorem rstripApos_of_no_apos {s : List Char} (h : apos ∉ s) : rstripApos s = s := by
  unfold rstripApos
  rw [List.dropWhile_eq_self_iff.mpr, List.reverse_reverse]
  intro hx hd
  simp only [decide_eq_true_eq] at hd
  have hm : s.reverse.get ⟨0, hx⟩ ∈ s.reverse := List.get_mem s.reverse 0 hx
  rw [List.mem_reverse] at hm
  exact h (hd ▸ hm)

theorem find?_congr {α : Type} (l : List α) (p q : α → Bool)
    (h : ∀ a ∈ l, p a = q a) : l.find? p = l.find? q := by
  induction l with
  | nil => rfl
  | cons a l ih =>
    simp only [List.find?]
    rw [h a (List.mem_cons_self a l)]
    split
    · rfl
    · exact ih fun b hb => h b (List.mem_cons_of_mem a hb)

theorem word_match_eq_simple {pw lw : List Char} (hpw : apos ∉ pw)
    (hlw : apos ∉ lw) : word_match pw lw = word_match_simple pw lw := by
  unfold word_match word_match_simple
  split
  · rfl
  · rw [rstripApos_of_no_apos hpw, rstripApos_of_no_apos hlw]
    by_cases h : lw = pw
    · subst h
      simp
    · have h2 : pw ≠ lw := fun hx => h hx.symm
      simp [h, h2]

theorem foldl_min_mem (xs : List Int) : ∀ x : Int, xs.foldl min x ∈ x :: xs := by
  induction xs with
  | nil => intro x; simp
  | cons a xs ih =>
    intro x
    simp only [List.foldl_cons]
    rcases min_choice x a with h | h
    · rcases List.mem_cons.mp (ih (min x a)) with h1 | h1
      · exact Or.inl (h1.trans h) |> List.mem_cons.mpr
      · exact List.mem_cons_of_mem x (List.mem_cons_of_mem a h1)
    · rcases List.mem_cons.mp (ih (min x a)) with h1 | h1
      · exact List.mem_cons_of_mem x (List.mem_cons.mpr (Or.inl (h1.trans h)))
      · exact List.mem_cons_of_mem x (List.mem_cons_of_mem a h1)

theorem foldl_max_mem (xs : List Int) : ∀ x : Int, xs.foldl max x ∈ x :: xs := by
  induction xs with
  | nil => intro x; simp
  | cons a xs ih =>
    intro x
    simp only [List.foldl_cons]
    rcases max_choice x a with h | h
    · rcases List.mem_cons.mp (ih (max x a)) with h1 | h1
      · exact List.mem_cons.mpr (Or.inl (h1.trans h))
      · exact List.mem_cons_of_mem x (List.mem_cons_of_mem a h1)
    · rcases List.mem_cons.mp (ih (max x a)) with h1 | h1
      · exact List.mem_cons_of_mem x (List.mem_cons.mpr (Or.inl (h1.trans h)))
      · exact List.mem_cons_of_mem x (List.mem_cons_of_mem a h1)

theorem foldl_min_le (xs : List Int) : ∀ x : Int, xs.foldl min x ≤ x := by
  induction xs with
  | nil => intro x; simp
  | cons a xs ih =>
    intro x
    simp only [List.foldl_cons]
    exact le_trans (ih (min x a)) (min_le_left x a)

theorem le_foldl_max (xs : List Int) : ∀ x : Int, x ≤ xs.foldl max x := by
  induction xs with
  | nil => intro x; simp
  | cons a xs ih =>
    intro x
    simp only [List.foldl_cons]
    exact le_trans (le_max_left x a) (ih (max x a))

theorem minPos_mem {xs : List Int} (h : xs ≠ []) : minPos xs ∈ xs := by
  cases xs with
  | nil => exact absurd rfl h
  | cons x xs => exact foldl_min_mem xs x

theorem maxPos_mem {xs : List Int} (h : xs ≠ []) : maxPos xs ∈ xs := by
  cases xs with
  | nil => exact absurd rfl h
  | cons x xs => exact foldl_max_mem xs x

theorem minPos_le_maxPos {xs : List Int} (h : xs ≠ []) : minPos xs ≤ maxPos xs := by
  cases xs with
  | nil => exact absurd rfl h
  | cons x xs =>
    exact le_trans (foldl_min_le xs x) (le_foldl_max xs x)

theorem scan_of_leftmost (pws : List (List Char)) (hp : pws ≠ []) :
    ∀ (i : Nat) (ws : List NW), windowAt pws ws i = true →
      (∀ j, j < i → windowAt pws ws j = false) →
      scanWindows pws ws = some (spanAt pws ws i) := by
  intro i
  induction i with
  | zero =>
    intro ws h0 _
    rw [windowAt] at h0
    split at h0 <;> rename_i hfit
    · cases ws with
      | nil =>
        rw [List.drop_zero] at hfit
        simp only [List.length_nil, Nat.le_zero, List.length_eq_zero] at hfit
        exact absurd hfit hp
      | cons w rest =>
        rw [List.drop_zero] at h0 hfit
        simp only [scanWindows, if_pos hfit, h0, if_pos]
        rfl
    · exact absurd h0 Bool.false_ne_true
  | succ i ih =>
    intro ws h0 hl
    cases ws with
    | nil =>
      rw [windowAt] at h0
      split at h0 <;> rename_i hfit
      · rw [List.drop_nil] at hfit
        simp only [List.length_nil, Nat.le_zero, List.length_eq_zero] at hfit
        exact absurd hfit hp
      · exact absurd h0 Bool.false_ne_true
    | cons w rest =>
      have hfit1 : pws.length ≤ ((w :: rest).drop (i + 1)).length := by
        rw [windowAt] at h0
        split at h0
        · assumption
        · exact absurd h0 Bool.false_ne_true
      have hfit0 : pws.length ≤ (w :: rest).length := by
        calc pws.length ≤ ((w :: rest).drop (i + 1)).length := hfit1
          _ ≤ (w :: rest).length := by
              rw [List.length_drop]; omega
      have hm0 : windowMatches pws (w :: rest) = false := by
        have h00 := hl 0 (Nat.succ_pos i)
        rw [windowAt] at h00
        rw [List.drop_zero] at h00
        rwa [if_pos hfit0] at h00
      rw [scanWindows, if_pos hfit0, hm0]
      simp only [Bool.false_eq_true, if_false]
      exact ih rest h0 (fun j hj => hl (j + 1) (Nat.succ_lt_succ hj))

theorem scan_some (pws : List (List Char)) :
    ∀ (ws : List NW) (r : Int × Int), scanWindows pws ws = some r →
      ∃ i, windowAt pws ws i = true ∧ r = spanAt pws ws i := by
  intro ws
  induction ws with
  | nil =>
    intro r h
    rw [scanWindows] at h
    split at h <;> rename_i hfit
    · split at h <;> rename_i hm
      · refine ⟨0, ?_, ?_⟩
        · rw [windowAt, List.drop_zero]
          simp only [List.length_nil]
          rw [if_pos hfit]
          exact hm
        · cases h
          simp [spanAt]
      · exact absurd h (by simp)
    · exact absurd h (by simp)
  | cons w rest ih =>
    intro r h
    rw [scanWindows] at h
    split at h <;> rename_i hfit
    · split at h <;> rename_i hm
      · refine ⟨0, ?_, ?_⟩
        · rw [windowAt, List.drop_zero, if_pos hfit]
          exact hm
        · cases h
          rfl
      · obtain ⟨i, h1, h2⟩ := ih r h
        exact ⟨i + 1, h1, h2⟩
    · exact absurd h (by simp)

theorem decide_eq_comm {α : Type} [DecidableEq α] (a b : α) :
    decide (a = b) = decide (b = a) := by
  by_cases h : a = b
  · subst h; simp
  · simp [h, Ne.symm h]

theorem word_match_nil_right {t : List Char} (htne : t ≠ []) (htap : apos ∉ t) :
    word_match t [] = false := by
  have h0 : rstripApos ([] : List Char) = [] := rfl
  unfold word_match
  split
  · simp [Ne.symm htne]
  · rw [rstripApos_of_no_apos htap, h0]
    simp [htne, Ne.symm htne]

/-- C8: find on the line Tu tienes que irte pa la casa ahora (with the
apostrophe after pa) with tokens at positions 1 through 8 and expression
pa la casa returns the span (5, 7). -/
theorem end_to_end_scenario :
    find_phrase_positions c8Line c8Expr c8Toks = some (5, 7) := by decide

/-- C5 (corrected): for every line text and every expression, a call of
find with an empty token list returns not-found immediately. An empty
line text alone does not force not-found, as the counterexample shows. -/
theorem empty_tokens_not_found (line phrase : List Char) :
    find_phrase_positions line phrase [] = none := rfl

/-- C5 counterexample: with an empty line text but a non-empty token list,
the short-word path ignores the line text and returns a span, so the
claim that an empty line forces not-found is false. -/
theorem empty_line_cex : find_phrase_positions [] laW laToks = some (1, 1) := by
  decide

/-- C3: whenever the expression normalizes to a single word of length at
least three or to two or more words, a failing coarse boundary containment
check makes find return not-found, with no token-level match reported. -/
theorem containment_fail_not_found :
    (∀ (line phrase : List Char) (toks : List Token) (target : List Char),
       pySplit (normalize_for_search phrase) = [target] →
       3 ≤ target.length →
       phrase_exists_in_line line phrase = false →
       find_phrase_positions line phrase toks = none) ∧
    (∀ (line phrase : List Char) (toks : List Token),
       2 ≤ (pySplit (normalize_for_search phrase)).length →
       phrase_exists_in_line line phrase = false →
       find_phrase_positions line phrase toks = none) := by
  constructor
  · intro line phrase toks target hsplit hlen hex
    unfold find_phrase_positions
    rw [hsplit]
    split
    · rfl
    · have hlt : ¬target.length < 3 := by omega
      simp [hex, hlt]
  · intro line phrase toks h2 hex
    cases hsplit : pySplit (normalize_for_search phrase) with
    | nil => rw [hsplit] at h2; simp at h2
    | cons t1 ts =>
      cases ts with
      | nil => rw [hsplit] at h2; simp at h2
      | cons t2 ts2 =>
        unfold find_phrase_positions
        rw [hsplit, hex]
        simp

/-- C3 witness: the line No voy a casar a nadie with expression casa is
rejected by the containment check, so find returns not-found and casa
does not match inside casar. -/
theorem containment_fail_witness :
    find_phrase_positions casaLine casaW casaToks = none :=
  containment_fail_not_found.1 casaLine casaW casaToks casaW (by decide)
    (by decide) (by decide)

/-- C2: for a single-word expression normalizing to a word of fewer than
three characters, find returns the first token whose normalized text is
exactly the word, else not-found, with no contraction leniency; and inside
a multi-word window the per-word comparison for a short word accepts only
exact normalized equality. -/
theorem short_word_exact_only :
    (∀ (line phrase : List Char) (toks : List Token) (target : List Char),
       pySplit (normalize_for_search phrase) = [target] →
       target.length < 3 →
       find_phrase_positions line phrase toks =
         ((toks.map mkNW).find? (fun w => decide (w.norm = target))).map
           (fun w => (w.position, w.position))) ∧
    (∀ pw lw : List Char, pw.length < 3 →
       (word_match pw lw = true ↔ lw = pw)) := by
  constructor
  · intro line phrase toks target hsplit hlen
    unfold find_phrase_positions
    rw [hsplit]
    split
    · rename_i hemp
      rw [List.isEmpty_iff.mp hemp]
      rfl
    · simp only [hlen, if_true]
      cases hf : (toks.map mkNW).find? (fun w => decide (w.norm = target)) <;>
        simp [hf]
  · intro pw lw hlen
    unfold word_match
    rw [if_pos hlen]
    simp

/-- C2 witness: tokens la at 1 and lava at 2 with expression la match at
position 1 only. -/
theorem short_word_exact_witness :
    find_phrase_positions [] laW laToks = some (1, 1) ∧
    ¬(word_match laW lavaW = true) := by
  constructor
  · exact (short_word_exact_only.1 [] laW laToks laW (by decide)
      (by decide)).trans (by decide)
  · intro h
    have := (short_word_exact_only.2 laW lavaW (by decide)).mp h
    exact absurd this (by decide)

/-- C4: a trailing ASCII apostrophe on the expression word or on the token
never blocks a single-word match: both expressions pa and pa-apostrophe
return the first token whose text normalizes to pa, at its position. -/
theorem trailing_apos_single_word (line : List Char) (toks : List Token)
    (w : NW)
    (hf : (toks.map mkNW).find? (fun x => decide (x.norm = paW)) = some w) :
    find_phrase_positions line paAposW toks = some (w.position, w.position) ∧
    find_phrase_positions line paW toks = some (w.position, w.position) := by
  have htoks : toks.isEmpty = false := by
    cases toks with
    | nil => simp at hf
    | cons a l => rfl
  have h1 : pySplit (normalize_for_search paAposW) = [paW] := by decide
  have h2 : pySplit (normalize_for_search paW) = [paW] := by decide
  constructor
  · unfold find_phrase_positions
    rw [h1]
    simp only [htoks, Bool.false_eq_true, if_false]
    rw [if_pos (show paW.length < 3 by decide), hf]
  · unfold find_phrase_positions
    rw [h2]
    simp only [htoks, Bool.false_eq_true, if_false]
    rw [if_pos (show paW.length < 3 by decide), hf]

/-- C4 witness: expression pa-apostrophe against token pa at position 5
matches at 5, and expression pa against token pa-apostrophe at position 5
matches at 5. -/
theorem trailing_apos_witness :
    find_phrase_positions [] paAposW [Token.mk paW 5] = some (5, 5) ∧
    find_phrase_positions [] paW [Token.mk paAposW 5] = some (5, 5) := by
  constructor
  · exact (trailing_apos_single_word [] [Token.mk paW 5] (mkNW (Token.mk paW 5))
      (by decide)).1
  · exact (trailing_apos_single_word [] [Token.mk paAposW 5] (mkNW (Token.mk paAposW 5))
      (by decide)).2

/-- C7: malformed input degrades to not-found without exceptions (the
embedded locator is a total function): an empty expression string, an
expression whose normalized form contains no words, and a token list all
of whose texts normalize to the empty string each give not-found. -/
theorem malformed_input_not_found :
    (∀ (line : List Char) (toks : List Token),
       find_phrase_positions line [] toks = none) ∧
    (∀ (line phrase : List Char) (toks : List Token),
       pySplit (normalize_for_search phrase) = [] →
       find_phrase_positions line phrase toks = none) ∧
    (∀ (line phrase : List Char) (toks : List Token),
       (∀ t ∈ toks, normalize_for_search t.word_text = []) →
       find_phrase_positions line phrase toks = none) := by
  have part2 : ∀ (line phrase : List Char) (toks : List Token),
      pySplit (normalize_for_search phrase) = [] →
      find_phrase_positions line phrase toks = none := by
    intro line phrase toks hsplit
    unfold find_phrase_positions
    rw [hsplit]
    split <;> rfl
  refine ⟨fun line toks => part2 line [] toks (by decide), part2, ?_⟩
  intro line phrase toks hblank
  have hnorm : ∀ w ∈ toks.map mkNW, w.norm = [] := by
    intro w hw
    obtain ⟨tk, htk, rfl⟩ := List.mem_map.mp hw
    exact hblank tk htk
  cases hsp : pySplit (normalize_for_search phrase) with
  | nil => exact part2 line phrase toks hsp
  | cons t ts =>
    have htmem : t ∈ pySplit (normalize_for_search phrase) := by
      rw [hsp]; exact List.mem_cons_self t ts
    have htne : t ≠ [] := pySplit_ne_nil htmem
    have htap : apos ∉ t := fun hc =>
      normalize_for_search_no_apos phrase (pySplit_subset htmem apos hc)
    have hshortfind :
        (toks.map mkNW).find? (fun w => decide (w.norm = t)) = none := by
      rw [List.find?_eq_none]
      intro w hw
      rw [hnorm w hw]
      simp [Ne.symm htne]
    have hlongfind :
        (toks.map mkNW).find? (fun w =>
          decide (w.norm = t) || decide (rstripApos t = w.norm) ||
          decide (rstripApos w.norm = t)) = none := by
      rw [List.find?_eq_none]
      intro w hw
      rw [hnorm w hw, rstripApos_of_no_apos htap]
      have h0 : rstripApos ([] : List Char) = [] := rfl
      rw [h0]
      simp [htne, Ne.symm htne]
    cases ts with
    | nil =>
      unfold find_phrase_positions
      rw [hsp]
      split
      · rfl
      · split
        · rfl
        · rename_i x target heq
          simp only [List.cons.injEq, and_true] at heq
          subst heq
          split
          · simp only [hshortfind]
          · split
            · simp only [hlongfind]
            · rfl
        · rename_i x pw1 pw2 pwrest heq
          simp at heq
    | cons t2 ts2 =>
      have hscan : ∀ ws : List NW, (∀ w ∈ ws, w.norm = []) →
          scanWindows (t :: t2 :: ts2) ws = none := by
        intro ws
        induction ws with
        | nil =>
          intro _
          rw [scanWindows]
          simp
        | cons w rest ih =>
          intro hall
          rw [scanWindows]
          have hm : windowMatches (t :: t2 :: ts2) (w :: rest) = false := by
            simp only [windowMatches]
            rw [hall w (List.mem_cons_self w rest),
              word_match_nil_right htne htap]
            simp
          rw [hm]
          simp only [Bool.false_eq_true, if_false]
          split
          · exact ih fun x hx => hall x (List.mem_cons_of_mem w hx)
          · rfl
      unfold find_phrase_positions
      rw [hsp]
      split
      · rfl
      · split
        · rfl
        · rename_i x target heq
          simp at heq
        · rename_i x pw1 pw2 pwrest heq
          simp only [List.cons.injEq] at heq
          obtain ⟨rfl, rfl, rfl⟩ := heq
          split
          · exact hscan (toks.map mkNW) hnorm
          · rfl

/-- C7 witness: a punctuation-only expression and a blank-normalizing
token list each give not-found on concrete inputs. -/
theorem malformed_input_witness :
    find_phrase_positions casaLine [] casaToks = none ∧
    find_phrase_positions casaLine punctOnlyE casaToks = none ∧
    find_phrase_positions casaLine casaW dotsToks = none := by
  refine ⟨malformed_input_not_found.1 casaLine casaToks, ?_, ?_⟩
  · exact malformed_input_not_found.2.1 casaLine punctOnlyE casaToks (by decide)
  · exact malformed_input_not_found.2.2 casaLine casaW dotsToks (by decide)

/-- C1 (corrected): for every line on which the coarse boundary
containment check passes, every expression of two or more normalized
words, and every token list, when the window at index i matches and no
earlier window matches, find returns the span of that leftmost matching
window and never scans on for a later one. When the containment check
fails, find returns not-found even if windows match (see the
counterexample). -/
theorem leftmost_window_policy (line phrase : List Char) (toks : List Token)
    (i : Nat)
    (h2 : 2 ≤ (pySplit (normalize_for_search phrase)).length)
    (hex : phrase_exists_in_line line phrase = true)
    (hi : windowAt (pySplit (normalize_for_search phrase)) (toks.map mkNW) i
      = true)
    (hleft : ∀ j, j < i →
      windowAt (pySplit (normalize_for_search phrase)) (toks.map mkNW) j
        = false) :
    find_phrase_positions line phrase toks =
      some (spanAt (pySplit (normalize_for_search phrase)) (toks.map mkNW) i)
    := by
  cases hsp : pySplit (normalize_for_search phrase) with
  | nil => rw [hsp] at h2; simp at h2
  | cons t1 ts =>
    cases ts with
    | nil => rw [hsp] at h2; simp at h2
    | cons t2 ts2 =>
      rw [hsp] at hi hleft
      have htoks : toks.isEmpty = false := by
        rw [windowAt] at hi
        split at hi
        · rename_i hfit
          cases toks with
          | nil => simp at hfit
          | cons a l => rfl
        · exact absurd hi Bool.false_ne_true
      unfold find_phrase_positions
      rw [hsp]
      simp only [htoks, Bool.false_eq_true, if_false, hex, if_true]
      exact scan_of_leftmost (t1 :: t2 :: ts2) (by simp) i (toks.map mkNW)
        hi hleft

/-- C1 witness: with the line tener que ver con tener que ver, the
containment check passes, the window at index 0 matches with none before
it, and find returns (1, 3). -/
theorem leftmost_window_witness :
    find_phrase_positions tenerLine tenerQueVerE tenerToks = some (1, 3) := by
  have h := leftmost_window_policy tenerLine tenerQueVerE tenerToks 0
    (by decide) (by decide) (by decide)
    (fun j hj => absurd hj (Nat.not_lt_zero j))
  exact h.trans (by decide)

/-- C1 counterexample: with an empty line text the containment check
fails, so even though the windows at indices 0 and 4 both fully match the
expression tener que ver, find returns not-found instead of the span
(1, 3) of the leftmost matching window; the claim is false without a
containment hypothesis. -/
theorem leftmost_window_cex :
    windowAt (pySplit (normalize_for_search tenerQueVerE))
      (tenerToks.map mkNW) 0 = true ∧
    windowAt (pySplit (normalize_for_search tenerQueVerE))
      (tenerToks.map mkNW) 4 = true ∧
    find_phrase_positions [] tenerQueVerE tenerToks = none := by
  refine ⟨by decide, by decide, by decide⟩

/-- C6: whenever find returns a span (s, e), then s is at most e, both are
position values of tokens of the supplied list, a single-word expression
gives s = e, and a multi-word expression gives the minimum and maximum of
the positions of a matched window, with no contiguity assumption on
positions. -/
theorem span_invariant (line phrase : List Char) (toks : List Token)
    (s e : Int)
    (h : find_phrase_positions line phrase toks = some (s, e)) :
    s ≤ e ∧ s ∈ toks.map Token.word_position ∧
    e ∈ toks.map Token.word_position ∧
    ((pySplit (normalize_for_search phrase)).length = 1 → s = e) ∧
    (2 ≤ (pySplit (normalize_for_search phrase)).length →
      ∃ i, windowAt (pySplit (normalize_for_search phrase))
          (toks.map mkNW) i = true ∧
        (s, e) = spanAt (pySplit (normalize_for_search phrase))
          (toks.map mkNW) i) := by
  have single_case : ∀ p : NW → Bool,
      (match (toks.map mkNW).find? p with
       | some w => some (w.position, w.position)
       | none => none) = some (s, e) →
      s ≤ e ∧ s ∈ toks.map Token.word_position ∧
      e ∈ toks.map Token.word_position ∧ s = e := by
    intro p hm
    cases hf : (toks.map mkNW).find? p with
    | none => rw [hf] at hm; exact absurd hm (by simp)
    | some w =>
      rw [hf] at hm
      have hw : w ∈ toks.map mkNW := List.mem_of_find?_eq_some hf
      obtain ⟨tk, htk, rfl⟩ := List.mem_map.mp hw
      simp only [Option.some.injEq, Prod.mk.injEq] at hm
      obtain ⟨h1, h2⟩ := hm
      subst h1
      subst h2
      exact ⟨le_refl _, List.mem_map.mpr ⟨tk, htk, rfl⟩,
        List.mem_map.mpr ⟨tk, htk, rfl⟩, rfl⟩
  unfold find_phrase_positions at h
  split at h
  · exact absurd h (by simp)
  · split at h
    · exact absurd h (by simp)
    · rename_i x target heq
      have hbase : s ≤ e ∧ s ∈ toks.map Token.word_position ∧
          e ∈ toks.map Token.word_position ∧ s = e := by
        split at h
        · exact single_case _ h
        · split at h
          · exact single_case _ h
          · exact absurd h (by simp)
      obtain ⟨hb1, hb2, hb3, hb4⟩ := hbase
      refine ⟨hb1, hb2, hb3, fun _ => hb4, fun hk => ?_⟩
      rw [heq] at hk
      simp at hk
    · rename_i x pw1 pw2 pwrest heq
      split at h
      · obtain ⟨i, hw, hspan⟩ := scan_some _ _ _ h
        have hfit : (pw1 :: pw2 :: pwrest).length ≤
            ((toks.map mkNW).drop i).length := by
          rw [windowAt] at hw
          split at hw
          · assumption
          · exact absurd hw Bool.false_ne_true
        have hspan2 : (s, e) =
            (minPos ((((toks.map mkNW).drop i).take
                (pw1 :: pw2 :: pwrest).length).map NW.position),
             maxPos ((((toks.map mkNW).drop i).take
                (pw1 :: pw2 :: pwrest).length).map NW.position)) := hspan
        have hlen : ((((toks.map mkNW).drop i).take
            (pw1 :: pw2 :: pwrest).length).map NW.position).length =
            (pw1 :: pw2 :: pwrest).length := by
          rw [List.length_map, List.length_take]
          exact Nat.min_eq_left hfit
        have hne : ((((toks.map mkNW).drop i).take
            (pw1 :: pw2 :: pwrest).length).map NW.position) ≠ [] := by
          intro hc
          rw [hc] at hlen
          simp at hlen
        have hsub : ∀ x ∈ (((toks.map mkNW).drop i).take
            (pw1 :: pw2 :: pwrest).length).map NW.position,
            x ∈ toks.map Token.word_position := by
          intro x hx
          obtain ⟨w, hw2, rfl⟩ := List.mem_map.mp hx
          have hw3 : w ∈ toks.map mkNW :=
            ((List.take_sublist _ _).trans (List.drop_sublist _ _)).subset hw2
          obtain ⟨tk, htk, rfl⟩ := List.mem_map.mp hw3
          exact List.mem_map.mpr ⟨tk, htk, rfl⟩
        simp only [Prod.mk.injEq] at hspan2
        obtain ⟨rfl, rfl⟩ := hspan2
        refine ⟨minPos_le_maxPos hne, hsub _ (minPos_mem hne),
          hsub _ (maxPos_mem hne), fun hk => ?_, fun _ => ?_⟩
        · rw [heq] at hk
          simp at hk
        · rw [heq]
          exact ⟨i, hw, hspan⟩
      · exact absurd h (by simp)

/-- C6 witness: the end-to-end scenario instantiates the invariant at the
span (5, 7). -/
theorem span_invariant_witness :
    (5 : Int) ≤ 7 ∧ (5 : Int) ∈ c8Toks.map Token.word_position ∧
    (7 : Int) ∈ c8Toks.map Token.word_position ∧
    ((pySplit (normalize_for_search c8Expr)).length = 1 → (5 : Int) = 7) ∧
    (2 ≤ (pySplit (normalize_for_search c8Expr)).length →
      ∃ i, windowAt (pySplit (normalize_for_search c8Expr))
          (c8Toks.map mkNW) i = true ∧
        ((5 : Int), (7 : Int)) = spanAt (pySplit (normalize_for_search c8Expr))
          (c8Toks.map mkNW) i) :=
  span_invariant c8Line c8Expr c8Toks 5 7 (by decide)

theorem il_norm_eq (s : List Char) :
    IL.normalize_for_search s = normalize_for_search s := rfl

theorem il_pel_eq (l p : List Char) :
    IL.phrase_exists_in_line l p = phrase_exists_in_line l p := rfl

theorem il_windowMatches_eq (pws : List (List Char)) :
    ∀ toks : List Token,
      IL.windowMatches pws (toks.map IL.mkNW) =
        windowMatches pws (toks.map mkNW) := by
  induction pws with
  | nil => intro toks; rfl
  | cons pw pws ih =>
    intro toks
    cases toks with
    | nil => rfl
    | cons t ts =>
      simp only [List.map_cons, IL.windowMatches, windowMatches]
      rw [ih ts]
      exact rfl

theorem il_take_map_pos (toks : List Token) (n : Nat) :
    ((toks.map IL.mkNW).take n).map IL.NW.position =
    ((toks.map mkNW).take n).map NW.position := by
  rw [← List.map_take, ← List.map_take, List.map_map, List.map_map]
  rfl

theorem il_scan_eq (pws : List (List Char)) :
    ∀ toks : List Token,
      IL.scanWindows pws (toks.map IL.mkNW) =
        scanWindows pws (toks.map mkNW) := by
  intro toks
  induction toks with
  | nil =>
    simp only [List.map_nil, IL.scanWindows, scanWindows]
    have h := il_windowMatches_eq pws []
    simp only [List.map_nil] at h
    rw [h]
  | cons t ts ih =>
    simp only [List.map_cons, IL.scanWindows, scanWindows]
    have h := il_windowMatches_eq pws (t :: ts)
    simp only [List.map_cons] at h
    have hposs := il_take_map_pos (t :: ts) pws.length
    simp only [List.map_cons] at hposs
    simp only [List.length_cons, List.length_map]
    rw [h, hposs, ih]

theorem il_single_eq (toks : List Token) (p : List Char → Bool) :
    (match (toks.map mkNW).find? (fun w => p w.norm) with
     | some w => some (w.position, w.position)
     | none => none) =
    (match (toks.map IL.mkNW).find? (fun w => p w.norm) with
     | some w => some (w.position, w.position)
     | none => none) := by
  induction toks with
  | nil => rfl
  | cons t ts ih =>
    simp only [List.map_cons, List.find?]
    cases hp : p (mkNW t).norm with
    | true =>
      have hp2 : p (IL.mkNW t).norm = true := hp
      rw [hp2]
      exact rfl
    | false =>
      have hp2 : p (IL.mkNW t).norm = false := hp
      rw [hp2]
      exact ih

/-- C9: the locator of the backfill script and the locator of the
lyrics-import script compute the same function on every input. -/
theorem backfill_import_equiv (line phrase : List Char) (toks : List Token) :
    find_phrase_positions line phrase toks =
      IL.find_phrase_positions line phrase toks := by
  unfold find_phrase_positions IL.find_phrase_positions
  rw [il_norm_eq, il_pel_eq]
  split
  · rfl
  · split
    · rfl
    · rename_i x target heq
      split
      · exact il_single_eq toks (fun n => decide (n = target))
      · split
        · exact il_single_eq toks (fun n =>
            decide (n = target) || decide (rstripApos target = n) ||
            decide (rstripApos n = target))
        · rfl
    · rename_i x pw1 pw2 pwrest heq
      split
      · exact (il_scan_eq (pw1 :: pw2 :: pwrest) toks).symm
      · rfl

theorem simple_windowMatches_eq (pws : List (List Char))
    (hpa : ∀ pw ∈ pws, apos ∉ pw) :
    ∀ toks : List Token,
      windowMatches pws (toks.map mkNW) =
        windowMatchesSimple pws (toks.map mkNW) := by
  induction pws with
  | nil => intro toks; rfl
  | cons pw pws ih =>
    intro toks
    cases toks with
    | nil => rfl
    | cons t ts =>
      simp only [List.map_cons, windowMatches, windowMatchesSimple]
      have hlw : apos ∉ (mkNW t).norm := normalize_for_search_no_apos t.word_text
      rw [word_match_eq_simple (hpa pw (List.mem_cons_self pw pws)) hlw,
        ih (fun q hq => hpa q (List.mem_cons_of_mem pw hq)) ts]

theorem simple_scan_eq (pws : List (List Char))
    (hpa : ∀ pw ∈ pws, apos ∉ pw) :
    ∀ toks : List Token,
      scanWindows pws (toks.map mkNW) =
        scanWindowsSimple pws (toks.map mkNW) := by
  intro toks
  induction toks with
  | nil =>
    simp only [List.map_nil, scanWindows, scanWindowsSimple]
    have h := simple_windowMatches_eq pws hpa []
    simp only [List.map_nil] at h
    rw [h]
  | cons t ts ih =>
    simp only [List.map_cons, scanWindows, scanWindowsSimple]
    have h := simple_windowMatches_eq pws hpa (t :: ts)
    simp only [List.map_cons] at h
    rw [h, ih]

/-- C10 (corrected): every string produced by normalize_for_search
contains no ASCII apostrophe — only the ASCII apostrophe is removed, the
Unicode right single quotation mark is not removed and may remain, see the
counterexample — so stripping a trailing apostrophe from an
apostrophe-free normalized word is the identity, and the locator is
extensionally equal to the simplified locator that uses only exact
normalized equality at the token level. -/
theorem apos_free_and_simple_equiv :
    (∀ s : List Char, apos ∉ normalize_for_search s) ∧
    (∀ s : List Char, apos ∉ s → rstripApos s = s) ∧
    (∀ (line phrase : List Char) (toks : List Token),
       find_phrase_positions line phrase toks =
         find_simple line phrase toks) := by
  refine ⟨normalize_for_search_no_apos, fun s h => rstripApos_of_no_apos h, ?_⟩
  intro line phrase toks
  unfold find_phrase_positions find_simple
  split
  · rfl
  · split
    · rfl
    · rename_i x target heq
      have htmem : target ∈ pySplit (normalize_for_search phrase) := by
        rw [heq]; exact List.mem_cons_self target []
      have hta : apos ∉ target := fun hc =>
        normalize_for_search_no_apos phrase (pySplit_subset htmem apos hc)
      split
      · rfl
      · split
        · have hcong : (toks.map mkNW).find? (fun w =>
              decide (w.norm = target) || decide (rstripApos target = w.norm)
              || decide (rstripApos w.norm = target)) =
              (toks.map mkNW).find? (fun w => decide (w.norm = target)) := by
            apply find?_congr
            intro w hw
            obtain ⟨tk, htk, rfl⟩ := List.mem_map.mp hw
            have hnw : apos ∉ (mkNW tk).norm :=
              normalize_for_search_no_apos tk.word_text
            rw [rstripApos_of_no_apos hta, rstripApos_of_no_apos hnw,
              decide_eq_comm target (mkNW tk).norm]
            simp [Bool.or_self]
          simp only [hcong]
        · rfl
    · rename_i x pw1 pw2 pwrest heq
      have hpa : ∀ pw ∈ pw1 :: pw2 :: pwrest, apos ∉ pw := by
        intro pw hpw hc
        refine normalize_for_search_no_apos phrase (pySplit_subset ?_ apos hc)
        rw [heq]
        exact hpw
      split
      · exact simple_scan_eq (pw1 :: pw2 :: pwrest) hpa toks
      · rfl

/-- C10 witness: the apostrophe-freedom, rstrip identity, and locator
equality instantiated on concrete inputs of this development. -/
theorem apos_free_simple_witness :
    apos ∉ normalize_for_search paAposW ∧
    rstripApos casaW = casaW ∧
    find_phrase_positions c8Line c8Expr c8Toks =
      find_simple c8Line c8Expr c8Toks :=
  ⟨apos_free_and_simple_equiv.1 paAposW,
   apos_free_and_simple_equiv.2.1 casaW (by decide),
   apos_free_and_simple_equiv.2.2 c8Line c8Expr c8Toks⟩

/-- C10 counterexample: normalize_for_search does not remove the Unicode
right single quotation mark U+2019, refuting the claim that both
apostrophe characters are removed. -/
theorem rsq_not_removed_cex : rsq ∈ normalize_for_search [rsq] := by decide
